import Mathlib

/-!
Verification of the cosmology notebook (`cosmo.ipynb`).

The notebook contains two numerical procedures:

* a Friedmann integrator: `E(a) = sqrt(omegam*a**-3 + (1-omegam))`,
  `age = 1/H0_cgs * quad(lambda a: 1/(a*E(a)), 0, 1)[0]` and
  `diameter = 2*c/H0_cgs * quad(lambda a: 1/(a**2*E(a)), 0, 1)[0]`;
* a dimensional unit solver: `solve([i*c_dims[x] + j*hbar_dims[x] +
  k*G_dims[x] - T_dims[x] for x in (L, T, M)], i, j, k, dict=True)[0]`,
  invoked for the Planck-time and Planck-length target dimensions,

plus a pie chart of the composition fractions.  We embed the numeric
quadratures as interval integrals over `ℝ`, the sympy linear solve as an
exact solver over `ℚ`, and prove certified rational enclosures of the two
integrals via Riemann sums whose coefficients are computed with a
kernel-reducible integer square root.
-/

set_option maxRecDepth 100000

/-! ### Kernel-computable integer square root

`Nat.sqrt` is defined by well-founded recursion and does not reduce inside
`decide`, so we use a bit-by-bit square root with structural fuel. -/

/-- Bit-by-bit integer square root: processes bits `k-1, …, 0`, keeping the
invariant `r*r ≤ n`. -/
def isqrtAux (n : ℕ) : ℕ → ℕ → ℕ
  | 0, r => r
  | k+1, r => isqrtAux n k (if (r + 2^k) * (r + 2^k) ≤ n then r + 2^k else r)

/-- Integer square root (floor), exact for `n < 2^64`. -/
def isqrt (n : ℕ) : ℕ := isqrtAux n 32 0

/-- Kernel-friendly summation `f 0 + f 1 + ⋯ + f (n-1)`, written with a bare
`Nat.rec` so that it reduces cheaply inside `decide`. -/
def natSum (f : ℕ → ℕ) (n : ℕ) : ℕ :=
  @Nat.rec (fun _ => ℕ) 0 (fun k acc => acc + f k) n

/-! ### Dimensional unit solver (notebook cell "Natural units")

The notebook solves `i*c_dims[x] + j*hbar_dims[x] + k*G_dims[x] = target[x]`
for `x ∈ (L, T, M)` with sympy over exact rationals.  A dimension vector is
a map from the three base dimensions to exponents. -/

/-- A dimension vector: exponents of length, time and mass. -/
structure DimVec where
  length : ℚ
  time : ℚ
  mass : ℚ
deriving DecidableEq

/-- Dimensions of the speed of light: `c_dims = {L: 1, T: -1, M: 0}`. -/
def cDims : DimVec := ⟨1, -1, 0⟩

/-- Dimensions of the reduced Planck constant: `hbar_dims = {L: 2, T: -1, M: 1}`. -/
def hbarDims : DimVec := ⟨2, -1, 1⟩

/-- Dimensions of the gravitational constant: `G_dims = {L: 3, T: -2, M: -1}`. -/
def GDims : DimVec := ⟨3, -2, -1⟩

/-- Target dimensions of Planck time: `T_dims = {L: 0, T: 1, M: 0}`. -/
def timeTarget : DimVec := ⟨0, 1, 0⟩

/-- Target dimensions of Planck length: `L_dims = {L: 1, T: 0, M: 0}`. -/
def lengthTarget : DimVec := ⟨1, 0, 0⟩

/-- The system of equations the notebook hands to sympy `solve`: one linear
equation per base dimension. -/
def dimEqns (u v w t : DimVec) (i j k : ℚ) : Prop :=
  i * u.length + j * v.length + k * w.length = t.length ∧
  i * u.time + j * v.time + k * w.time = t.time ∧
  i * u.mass + j * v.mass + k * w.mass = t.mass

instance (u v w t : DimVec) (i j k : ℚ) : Decidable (dimEqns u v w t i j k) :=
  inferInstanceAs (Decidable (_ ∧ _ ∧ _))

/-- Determinant of the 3×3 matrix whose columns are the three dimension
vectors. -/
def det3 (u v w : DimVec) : ℚ :=
  u.length * (v.time * w.mass - v.mass * w.time)
    - v.length * (u.time * w.mass - u.mass * w.time)
    + w.length * (u.time * v.mass - u.mass * v.time)

/-- Embedding of `solve(...)[0]` on the 3×3 linear system: for a
non-degenerate system sympy returns the one-element list holding the unique
solution and `[0]` selects it; for a degenerate system no concrete exponent
triple is produced (an empty or parametric solution set, on which the
notebook's subsequent subscripting fails), modelled as `none`. -/
def solveDims (u v w t : DimVec) : Option (ℚ × ℚ × ℚ) :=
  if det3 u v w = 0 then none
  else some
    (det3 t v w / det3 u v w,
     det3 u t w / det3 u v w,
     det3 u v t / det3 u v w)

/-- Exponent triple for Planck time, `t_p_dims` in the notebook
(`solve(...)[0]` with the time target). -/
def tPdimsTriple : ℚ × ℚ × ℚ :=
  (solveDims cDims hbarDims GDims timeTarget).getD (0, 0, 0)

/-- Exponent triple for Planck length, `l_p_dims` in the notebook. -/
def lPdimsTriple : ℚ × ℚ × ℚ :=
  (solveDims cDims hbarDims GDims lengthTarget).getD (0, 0, 0)

/-! ### Friedmann integrator (notebook cell "Age and diameter of the universe") -/

/-- `H0 = 67.36  # km s^-1 Mpc^-1` (Planck 2018). -/
noncomputable def H0val : ℝ := 67.36

/-- `kpc.value` from astropy: one kiloparsec in metres. -/
noncomputable def kpcVal : ℝ := 3.0856775814913673e19

/-- `H0_cgs = H0 * 1e3 / (kpc.value * 1e3)  # s^-1`. -/
noncomputable def H0cgs : ℝ := H0val * 1e3 / (kpcVal * 1e3)

/-- `omegam = 0.3153`. -/
noncomputable def omegam : ℝ := 0.3153

/-- Normalized expansion rate from the Friedmann equation:
`E(a) = np.sqrt(omegam*a**-3 + (1-omegam))`, parametrized by `omegam`. -/
noncomputable def E (om a : ℝ) : ℝ := Real.sqrt (om * (a^3)⁻¹ + (1 - om))

/-- The age quadrature `quad(lambda a: 1/(a*E(a)), 0, 1)[0]`, embedded as the
definite integral it computes. -/
noncomputable def ageIntegral (om : ℝ) : ℝ := ∫ a in (0:ℝ)..1, 1 / (a * E om a)

/-- `age = 1/H0_cgs*quad(lambda a: 1/(a*E(a)), 0, 1)[0]`, parametrized by the
density parameter and the Hubble rate. -/
noncomputable def age (om h0 : ℝ) : ℝ := 1 / h0 * ageIntegral om

/-- `Gyr = 60 * 60 * 24 * 365 * 1e9` (seconds per gigayear). -/
noncomputable def GyrVal : ℝ := 60 * 60 * 24 * 365 * 1e9

/-- `c.to("cm/s").value`: the speed of light in cm/s. -/
noncomputable def cCmPerS : ℝ := 2.99792458e10

/-- The diameter quadrature `quad(lambda a: 1/(a**2*E(a)), 0, 1)[0]`. -/
noncomputable def diamIntegral (om : ℝ) : ℝ := ∫ a in (0:ℝ)..1, 1 / (a^2 * E om a)

/-- `diameter = 2 * c.to("cm/s").value / H0_cgs * quad(...)[0]`. -/
noncomputable def diameter (om h0 cv : ℝ) : ℝ := 2 * cv / h0 * diamIntegral om

/-- The age the notebook computes (seconds). -/
noncomputable def ageVal : ℝ := age omegam H0cgs

/-- The diameter the notebook computes (centimetres). -/
noncomputable def diameterVal : ℝ := diameter omegam H0cgs cCmPerS

/-! ### Planck-unit round trip (notebook cell with `t_p_cgs` / `l_p_cgs`) -/

/-- `c.value`: speed of light in m/s (SI). -/
noncomputable def cSI : ℝ := 2.99792458e8

/-- `hbar.value`: reduced Planck constant in SI units. -/
noncomputable def hbarSI : ℝ := 1.0545718176461565e-34

/-- `G.value`: gravitational constant in SI units. -/
noncomputable def GSI : ℝ := 6.6743e-11

/-- `t_p_cgs = c.value**t_p_dims[i] * hbar.value**t_p_dims[j] * G.value**t_p_dims[k]`.
The float powers with rational exponents are embedded as real powers. -/
noncomputable def tPcgs : ℝ :=
  cSI ^ (tPdimsTriple.1 : ℝ) * hbarSI ^ (tPdimsTriple.2.1 : ℝ)
    * GSI ^ (tPdimsTriple.2.2 : ℝ)

/-- `l_p_cgs = c.value**l_p_dims[i] * hbar.value**l_p_dims[j] * G.value**l_p_dims[k] * 100`. -/
noncomputable def lPcgs : ℝ :=
  cSI ^ (lPdimsTriple.1 : ℝ) * hbarSI ^ (lPdimsTriple.2.1 : ℝ)
    * GSI ^ (lPdimsTriple.2.2 : ℝ) * 100

/-! ### Composition chart (notebook cell "Composition of universe") -/

/-- `omegal = 0.6847`. -/
noncomputable def omegal : ℝ := 0.6847

/-- `ombh2 = 0.02237`. -/
noncomputable def ombh2 : ℝ := 0.02237

/-- `h = H0 / 100`. -/
noncomputable def hParam : ℝ := H0val / 100

/-- `omegab = ombh2 / h**2`. -/
noncomputable def omegab : ℝ := ombh2 / hParam^2

/-- `omch2 = 0.1200`. -/
noncomputable def omch2 : ℝ := 0.1200

/-- `omegac = omch2 / h**2`. -/
noncomputable def omegac : ℝ := omch2 / hParam^2

/-- `sizes = [omegab, omegac, omegal]`, the fractions handed to `ax.pie`. -/
noncomputable def sizes : List ℝ := [omegab, omegac, omegal]

/-! ### Spec-modelled error-checking variants

The specification demands failure behaviour (a `NumericalInstability` error
for out-of-range `Ωm` or a non-converging quadrature, a `DegenerateSystem`
failure for dependent dimension vectors).  The notebook code has no such
paths; the following definitions are written from the spec's words so the
claimed behaviour can be compared with the embedded source. -/

/-- Error taxonomy named by the specification. -/
inductive FriedmannError where
  | numericalInstability
deriving DecidableEq

open scoped Classical in
/-- Modelled from the spec: "fails with a NumericalInstability error … if
`Ωm ≤ 0` or `≥ 1` is supplied".  The notebook's integrator performs no such
check; this definition exists only to state the spec's contract. -/
noncomputable def ageChecked (om h0 : ℝ) : Except FriedmannError ℝ :=
  if om ≤ 0 ∨ 1 ≤ om then Except.error FriedmannError.numericalInstability
  else Except.ok (age om h0)

/-- The shape of the notebook's use of `quad`: `quad` returns the pair
`(value, abserr)` and the code keeps `1/H0_cgs * pair[0]`.  The error
component is a parameter, since the code never inspects it. -/
noncomputable def ageFromQuad (p : ℝ × ℝ) : ℝ := 1 / H0cgs * p.1

/-- Notebook's diameter from a `quad` pair: `2*c/H0_cgs * pair[0]`. -/
noncomputable def diamFromQuad (p : ℝ × ℝ) : ℝ := 2 * cCmPerS / H0cgs * p.1

open scoped Classical in
/-- Modelled from the spec: "must report the estimated integration error
alongside the result, failing (or flagging) if the error exceeds a chosen
relative tolerance".  Absent from the notebook, which discards `quad`'s
error estimate. -/
noncomputable def quadChecked (p : ℝ × ℝ) (tol : ℝ) : Except FriedmannError ℝ :=
  if |p.2| ≤ tol * |p.1| then Except.ok p.1
  else Except.error FriedmannError.numericalInstability

/-! ### Certified Riemann-sum enclosures

After the change of variables `a = t^2`, the two integrands become
`phiFun t = 2 t^2 / sqrt (q t)` and `psiFun t = 2 / sqrt (q t)` with
`q t = omegam + (1-omegam) t^6`, both continuous on `[0,1]`.  On the uniform
mesh `t = i / 1024` we bound `1 / sqrt (q t)` between scaled integer square
roots: with `S = 10^6`, `D = 10^4·1024^6`, `A i = 3153·1024^6 + 6847·i^6` we
have `q (i/1024) = A i / D`, and `isqrt (S^2·D / A i) / S` is a certified
lower bound for `1 / sqrt (q (i/1024))` (adding 1 gives an upper bound). -/

/-- Substituted age integrand: `2 t^2 / sqrt (omegam + (1-omegam) t^6)`. -/
noncomputable def phiFun (t : ℝ) : ℝ :=
  2 * t^2 * (Real.sqrt (omegam + (1 - omegam) * t^6))⁻¹

/-- Substituted diameter integrand: `2 / sqrt (omegam + (1-omegam) t^6)`. -/
noncomputable def psiFun (t : ℝ) : ℝ :=
  2 * (Real.sqrt (omegam + (1 - omegam) * t^6))⁻¹

/-- Mesh size of the certified Riemann sums. -/
def meshN : ℕ := 1024

/-- Scale of the integer square-root bounds. -/
def sqScale : ℕ := 1000000

/-- Common denominator of `q (i/meshN)`: `10^4 · meshN^6`. -/
def DD : ℕ := 10000 * meshN^6

/-- Numerator of `q (i/meshN)`: `3153·meshN^6 + 6847·i^6`. -/
def AA (i : ℕ) : ℕ := 3153 * meshN^6 + 6847 * i^6

/-- Scaled upper bound for `1 / sqrt (q (i/meshN))`. -/
def uB (i : ℕ) : ℕ := isqrt (sqScale^2 * DD / AA i) + 1

/-- Scaled lower bound for `1 / sqrt (q (i/meshN))`. -/
def lB (i : ℕ) : ℕ := isqrt (sqScale^2 * DD / AA i)

/-- Numerator of the upper Riemann bound of `∫ phiFun`: on each mesh cell
`phiFun t ≤ 2 t^2 · uB i / sqScale` and `∫ t^2` contributes `((i+1)^3-i^3)`
over `3·meshN^3`. -/
def ageUpN : ℕ := natSum (fun i => ((i+1)^3 - i^3) * uB i) meshN

/-- Numerator of the lower Riemann bound of `∫ phiFun` (right endpoints). -/
def ageLoN : ℕ := natSum (fun i => ((i+1)^3 - i^3) * lB (i+1)) meshN

/-- Numerator of the upper Riemann bound of `∫ psiFun` (left endpoints). -/
def diamUpN : ℕ := natSum (fun i => uB i) meshN

/-- Numerator of the lower Riemann bound of `∫ psiFun` (right endpoints). -/
def diamLoN : ℕ := natSum (fun i => lB (i+1)) meshN

/-- Fin-3 coordinate view of a dimension vector, for the linear-independence
statement. -/
def DimVec.toFin (d : DimVec) : Fin 3 → ℚ := ![d.length, d.time, d.mass]

/-! ## Theorems -/

/-! ### Integer square root: correctness -/

theorem isqrtAux_sq_le (n : ℕ) : ∀ k r : ℕ, r * r ≤ n →
    isqrtAux n k r * isqrtAux n k r ≤ n := by
  intro k
  induction k with
  | zero => intro r h; simpa [isqrtAux] using h
  | succ k ih =>
      intro r h
      simp only [isqrtAux]
      by_cases hc : (r + 2^k) * (r + 2^k) ≤ n
      · rw [if_pos hc]; exact ih _ hc
      · rw [if_neg hc]; exact ih _ h

theorem isqrtAux_lt (n : ℕ) : ∀ k r : ℕ, n < (r + 2^k) * (r + 2^k) →
    n < (isqrtAux n k r + 1) * (isqrtAux n k r + 1) := by
  intro k
  induction k with
  | zero => intro r h; simpa [isqrtAux] using h
  | succ k ih =>
      intro r h
      simp only [isqrtAux]
      by_cases hc : (r + 2^k) * (r + 2^k) ≤ n
      · rw [if_pos hc]
        apply ih
        have h2 : r + 2^k + 2^k = r + 2^(k+1) := by rw [pow_succ]; ring
        rw [h2]; exact h
      · rw [if_neg hc]
        exact ih r (Nat.lt_of_not_le hc)

theorem isqrt_sq_le (n : ℕ) : isqrt n * isqrt n ≤ n :=
  isqrtAux_sq_le n 32 0 (by simp)

theorem lt_isqrt_add_one (n : ℕ) (h : n < 2^64) :
    n < (isqrt n + 1) * (isqrt n + 1) := by
  apply isqrtAux_lt n 32 0
  have h2 : (0 + 2^32) * (0 + 2^32) = 2^64 := by norm_num
  rw [h2]; exact h

/-- Lower bound bridge: `isqrt (s²·b/a) / s ≤ √(b/a)` over the reals. -/
theorem isqrt_le_sqrt_div (b a s : ℕ) (ha : 0 < a) :
    ((isqrt (s * s * b / a) : ℝ) / (s : ℝ)) ≤ Real.sqrt ((b : ℝ) / (a : ℝ)) := by
  rcases Nat.eq_zero_or_pos s with hs | hs
  · subst hs; simp; positivity
  · have hmle : ((s * s * b / a : ℕ) : ℝ) ≤ ((s * s * b : ℕ) : ℝ) / (a : ℝ) :=
      Nat.cast_div_le
    have h1 : ((isqrt (s * s * b / a) : ℕ) : ℝ) * ((isqrt (s * s * b / a) : ℕ) : ℝ)
        ≤ ((s * s * b / a : ℕ) : ℝ) := by exact_mod_cast isqrt_sq_le _
    have hs0 : (0:ℝ) < s := by exact_mod_cast hs
    have ha0 : (0:ℝ) < a := by exact_mod_cast ha
    have key : (((isqrt (s * s * b / a) : ℕ) : ℝ) / s) ^ 2 ≤ (b : ℝ) / a := by
      rw [div_pow, div_le_div_iff (by positivity) ha0]
      have h2 : ((s * s * b / a : ℕ) : ℝ) * a ≤ (s : ℝ) * s * b := by
        have h3 := (le_div_iff ha0).mp hmle
        calc ((s * s * b / a : ℕ) : ℝ) * a ≤ ((s * s * b : ℕ) : ℝ) := h3
        _ = (s : ℝ) * s * b := by push_cast; ring
      nlinarith [h1, h2]
    calc ((isqrt (s * s * b / a) : ℕ) : ℝ) / s
        = Real.sqrt ((((isqrt (s * s * b / a) : ℕ) : ℝ) / s) ^ 2) :=
          (Real.sqrt_sq (by positivity)).symm
    _ ≤ Real.sqrt ((b : ℝ) / a) := Real.sqrt_le_sqrt key

/-- Upper bound bridge: `√(b/a) ≤ (isqrt (s²·b/a) + 1) / s` over the reals. -/
theorem sqrt_div_le_isqrt (b a s : ℕ) (ha : 0 < a) (hs : 0 < s)
    (hbig : s * s * b / a < 2^64) :
    Real.sqrt ((b : ℝ) / (a : ℝ)) ≤ ((isqrt (s * s * b / a) + 1 : ℕ) : ℝ) / (s : ℝ) := by
  have hlt : s * s * b < (s * s * b / a + 1) * a :=
    (Nat.div_lt_iff_lt_mul ha).mp (Nat.lt_succ_self _)
  have hm1 : s * s * b / a + 1 ≤
      (isqrt (s * s * b / a) + 1) * (isqrt (s * s * b / a) + 1) :=
    lt_isqrt_add_one _ hbig
  have ha0 : (0:ℝ) < a := by exact_mod_cast ha
  have hs0 : (0:ℝ) < s := by exact_mod_cast hs
  have key : (b : ℝ) / a ≤ (((isqrt (s * s * b / a) + 1 : ℕ) : ℝ) / s) ^ 2 := by
    rw [div_pow, div_le_div_iff ha0 (by positivity)]
    have hc1 : (s : ℝ) * s * b < ((s * s * b / a + 1 : ℕ) : ℝ) * a := by
      exact_mod_cast hlt
    have hc2 : ((s * s * b / a + 1 : ℕ) : ℝ) ≤
        ((isqrt (s * s * b / a) + 1 : ℕ) : ℝ) ^ 2 := by
      have := hm1
      have h4 : ((s * s * b / a + 1 : ℕ) : ℝ) ≤
          ((isqrt (s * s * b / a) + 1 : ℕ) : ℝ) * ((isqrt (s * s * b / a) + 1 : ℕ) : ℝ) := by
        exact_mod_cast this
      calc ((s * s * b / a + 1 : ℕ) : ℝ) ≤ _ := h4
      _ = ((isqrt (s * s * b / a) + 1 : ℕ) : ℝ) ^ 2 := (sq _).symm
    nlinarith [hc1, hc2]
  calc Real.sqrt ((b : ℝ) / a) ≤
      Real.sqrt ((((isqrt (s * s * b / a) + 1 : ℕ) : ℝ) / s) ^ 2) :=
        Real.sqrt_le_sqrt key
  _ = ((isqrt (s * s * b / a) + 1 : ℕ) : ℝ) / s := Real.sqrt_sq (by positivity)

/-! ### Summation helper -/

theorem natSum_succ (f : ℕ → ℕ) (n : ℕ) : natSum f (n+1) = natSum f n + f n := rfl

theorem natSum_eq_sum (f : ℕ → ℕ) (n : ℕ) :
    natSum f n = ∑ i ∈ Finset.range n, f i := by
  induction n with
  | zero => rfl
  | succ n ih => rw [natSum_succ, Finset.sum_range_succ, ih]

/-! ### Claim C1: the dimensional solver's Planck exponents -/

/-- Claim C1: given the dimension vectors of `c = (1,-1,0)`, `ħ = (2,-1,1)`,
`G = (3,-2,-1)`, the solver returns the unique solution of the 3×3 linear
system: `(-5/2, 1/2, 1/2)` for the time target (Planck time) and
`(-3/2, 1/2, 1/2)` for the length target (Planck length); these are the
unique triples satisfying the respective systems. -/
theorem dim_solver_planck_exponents :
    solveDims cDims hbarDims GDims timeTarget = some (-5/2, 1/2, 1/2) ∧
    solveDims cDims hbarDims GDims lengthTarget = some (-3/2, 1/2, 1/2) ∧
    (∀ i j k : ℚ, dimEqns cDims hbarDims GDims timeTarget i j k ↔
      (i, j, k) = (-5/2, 1/2, 1/2)) ∧
    (∀ i j k : ℚ, dimEqns cDims hbarDims GDims lengthTarget i j k ↔
      (i, j, k) = (-3/2, 1/2, 1/2)) := by
  have hsolve : ∀ t : DimVec, solveDims cDims hbarDims GDims t =
      some (det3 t hbarDims GDims / (-2), det3 cDims t GDims / (-2),
        det3 cDims hbarDims t / (-2)) := by
    intro t
    have hdet : det3 cDims hbarDims GDims = -2 := by
      norm_num [det3, cDims, hbarDims, GDims]
    rw [solveDims, hdet]
    norm_num
  refine ⟨?_, ?_, ?_, ?_⟩
  · rw [hsolve]
    norm_num [det3, cDims, hbarDims, GDims, timeTarget]
  · rw [hsolve]
    norm_num [det3, cDims, hbarDims, GDims, lengthTarget]
  · intro i j k
    constructor
    · rintro ⟨h1, h2, h3⟩
      simp only [cDims, hbarDims, GDims, timeTarget] at h1 h2 h3
      have hi : i = -5/2 := by linarith
      have hj : j = 1/2 := by linarith
      have hk : k = 1/2 := by linarith
      simp [hi, hj, hk]
    · intro h
      rw [Prod.mk.injEq, Prod.mk.injEq] at h
      obtain ⟨hi, hj, hk⟩ := h
      subst hi; subst hj; subst hk
      norm_num [dimEqns, cDims, hbarDims, GDims, timeTarget]
  · intro i j k
    constructor
    · rintro ⟨h1, h2, h3⟩
      simp only [cDims, hbarDims, GDims, lengthTarget] at h1 h2 h3
      have hi : i = -3/2 := by linarith
      have hj : j = 1/2 := by linarith
      have hk : k = 1/2 := by linarith
      simp [hi, hj, hk]
    · intro h
      rw [Prod.mk.injEq, Prod.mk.injEq] at h
      obtain ⟨hi, hj, hk⟩ := h
      subst hi; subst hj; subst hk
      norm_num [dimEqns, cDims, hbarDims, GDims, lengthTarget]

/-! ### Claim C7: linear independence and the degenerate guard -/

/-- Claim C7: the three constant-dimension vectors are linearly independent
(the system's determinant is `-2 ≠ 0`), the solver finds a solution for the
actual inputs, and on any degenerate system (`det3 = 0`) the embedded
`solve(...)[0]` produces no exponent triple rather than an arbitrary one.
The shallow embedding collapses the failure (sympy's empty or parametric
solution set, on which the notebook's indexing/substitution fails) to
`none`; the exception's spec name `DegenerateSystem` itself is not
observable in the embedding. -/
theorem dim_solver_degenerate_guard :
    (det3 cDims hbarDims GDims = -2 ∧
      LinearIndependent ℚ ![cDims.toFin, hbarDims.toFin, GDims.toFin]) ∧
    (∃ s, solveDims cDims hbarDims GDims timeTarget = some s ∧
      dimEqns cDims hbarDims GDims timeTarget s.1 s.2.1 s.2.2) ∧
    (∀ u v w t : DimVec, det3 u v w = 0 → solveDims u v w t = none) := by
  have hdet : det3 cDims hbarDims GDims = -2 := by
    norm_num [det3, cDims, hbarDims, GDims]
  refine ⟨⟨hdet, ?_⟩, ⟨(-5/2, 1/2, 1/2), ?_, ?_⟩, ?_⟩
  · rw [Fintype.linearIndependent_iff]
    intro g hg
    have h0 := congrFun hg 0
    have h1 := congrFun hg 1
    have h2 := congrFun hg 2
    simp [Fin.sum_univ_three, DimVec.toFin, cDims, hbarDims, GDims] at h0 h1 h2
    intro i
    fin_cases i <;> simp <;> linarith
  · rw [solveDims, hdet]
    norm_num [det3, cDims, hbarDims, GDims, timeTarget]
  · norm_num [dimEqns, cDims, hbarDims, GDims, timeTarget]
  · intro u v w t h
    simp [solveDims, h]

/-! ### Claim C9: composition fractions sum to nearly one -/

/-- Claim C9: the three fractions handed to the pie chart — `omegab =
ombh2/h²`, `omegac = omch2/h²` and `omegal`, with `h = H0/100` — sum to
within two percent of 1, and to strictly less than 1 (the shortfall being
the omitted radiation term). -/
theorem composition_fractions :
    |sizes.sum - 1| ≤ 2/100 ∧ sizes.sum < 1 := by
  have hs : sizes.sum = omegab + omegac + omegal := by
    simp [sizes]
    ring
  rw [hs]
  constructor
  · rw [abs_le]
    constructor <;>
      norm_num [omegab, omegac, omegal, ombh2, omch2, hParam, H0val]
  · norm_num [omegab, omegac, omegal, ombh2, omch2, hParam, H0val]

/-! ### Claim C10: the expansion rate is well defined and positive -/

/-- Claim C10: for `0 < om < 1` and `0 < a ≤ 1` the radicand of `E` is
nonnegative (no square root of a negative number), `E om a` is bounded
below by `√(1-om) > 0`, and the denominators `a·E(a)` and `a²·E(a)` of the
two integrands are nonzero. -/
theorem E_well_defined (om a : ℝ) (h1 : 0 < om) (h2 : om < 1)
    (h3 : 0 < a) (h4 : a ≤ 1) :
    0 ≤ om * (a^3)⁻¹ + (1 - om) ∧
    Real.sqrt (1 - om) ≤ E om a ∧
    0 < E om a ∧
    a * E om a ≠ 0 ∧
    a^2 * E om a ≠ 0 := by
  have ha3 : 0 < (a^3)⁻¹ := by positivity
  have hrad : 0 ≤ om * (a^3)⁻¹ + (1 - om) := by nlinarith
  have hmono : 1 - om ≤ om * (a^3)⁻¹ + (1 - om) := by nlinarith
  have hEpos : 0 < E om a := by
    rw [E, Real.sqrt_pos]; nlinarith
  exact ⟨hrad, Real.sqrt_le_sqrt hmono, hEpos,
    mul_ne_zero (ne_of_gt h3) (ne_of_gt hEpos),
    mul_ne_zero (by positivity) (ne_of_gt hEpos)⟩

/-- Witness for C10 at `om = 1/2`, `a = 1`. -/
theorem E_well_defined_witness :
    ((0:ℝ) < 1/2 ∧ (1/2:ℝ) < 1 ∧ (0:ℝ) < 1 ∧ (1:ℝ) ≤ 1) ∧
    (0 ≤ (1/2:ℝ) * ((1:ℝ)^3)⁻¹ + (1 - 1/2) ∧
      Real.sqrt (1 - 1/2) ≤ E (1/2) 1 ∧
      0 < E (1/2) 1 ∧
      (1:ℝ) * E (1/2) 1 ≠ 0 ∧
      (1:ℝ)^2 * E (1/2) 1 ≠ 0) :=
  ⟨⟨by norm_num, by norm_num, by norm_num, by norm_num⟩,
    E_well_defined (1/2) 1 (by norm_num) (by norm_num) (by norm_num) (by norm_num)⟩

/-! ### Claim C2: the age integral and its matter-only closed form -/

/-- Matter-only universe: with `om = 1` the integrand reduces to `√a` and
the age quadrature evaluates exactly to `2/3`. -/
theorem ageIntegral_one : ageIntegral 1 = 2/3 := by
  rw [ageIntegral]
  have hcongr : Set.EqOn (fun a : ℝ => 1 / (a * E 1 a))
      (fun a : ℝ => a ^ ((1:ℝ)/2)) (Set.uIcc 0 1) := by
    intro a ha
    rw [Set.uIcc_of_le (by norm_num : (0:ℝ) ≤ 1)] at ha
    rcases eq_or_lt_of_le ha.1 with h0 | h0
    · have ha0 : a = 0 := h0.symm
      subst ha0
      simp only [E]
      rw [Real.zero_rpow (by norm_num)]
      norm_num
    · have hsa : 0 < Real.sqrt a := Real.sqrt_pos.mpr h0
      have hE : E 1 a = (a * Real.sqrt a)⁻¹ := by
        rw [E]
        have h1 : (1:ℝ) * (a^3)⁻¹ + (1 - 1) = (a^3)⁻¹ := by ring
        rw [h1, Real.sqrt_inv]
        congr 1
        have h2 : a^3 = a^2 * a := by ring
        rw [h2, Real.sqrt_mul (by positivity), Real.sqrt_sq h0.le]
      simp only
      rw [hE, ← Real.sqrt_eq_rpow]
      field_simp
  rw [intervalIntegral.integral_congr hcongr]
  rw [integral_rpow (Or.inl (by norm_num))]
  rw [Real.one_rpow, Real.zero_rpow (by norm_num)]
  norm_num

/-- Claim C2: the integrator's age equals `H0⁻¹ ∫₀¹ da/(a E(a))`, and for
`Ωm = 1` (matter-only universe) it equals the closed form `(2/3) H0⁻¹`
exactly — in particular within relative tolerance `10⁻⁶`. -/
theorem age_formula_and_matter_only :
    (∀ om h0 : ℝ, age om h0 = h0⁻¹ * ∫ a in (0:ℝ)..1, 1 / (a * E om a)) ∧
    (∀ h0 : ℝ, age 1 h0 = 2/3 * h0⁻¹ ∧
      |age 1 h0 - 2/3 * h0⁻¹| ≤ 1e-6 * |2/3 * h0⁻¹|) := by
  constructor
  · intro om h0
    rw [age, ageIntegral, one_div]
  · intro h0
    have h : age 1 h0 = 2/3 * h0⁻¹ := by
      rw [age, ageIntegral_one]; ring
    refine ⟨h, ?_⟩
    rw [h, sub_self, abs_zero]
    positivity

/-! ### Claim C3: the diameter formula -/

/-- Claim C3: for every `Ωm ∈ (0,1)` the diameter the integrator computes is
`2 c H0⁻¹ ∫₀¹ da/(a² E(a))`, with the same `E` as the age computation. -/
theorem diameter_formula (om h0 cv : ℝ) (h1 : 0 < om) (h2 : om < 1) :
    diameter om h0 cv = 2 * cv * h0⁻¹ * ∫ a in (0:ℝ)..1, 1 / (a^2 * E om a) := by
  rw [diameter, diamIntegral]
  ring

/-- Witness for C3 at `om = 1/2`, `h0 = 1`, `cv = 1`. -/
theorem diameter_formula_witness :
    ((0:ℝ) < 1/2 ∧ (1/2:ℝ) < 1) ∧
    diameter (1/2) 1 1 = 2 * 1 * (1:ℝ)⁻¹ * ∫ a in (0:ℝ)..1, 1 / (a^2 * E (1/2) a) :=
  ⟨⟨by norm_num, by norm_num⟩,
    diameter_formula (1/2) 1 1 (by norm_num) (by norm_num)⟩

/-! ### Claim C6 (corrected): the integrator has no failure path -/

/-- Counterexample to claim C6: at `Ωm = 1` — a value the claimed error
contract (`fail whenever Ωm ≥ 1`) would reject — the notebook's integrator
returns the perfectly finite value `2/3` (for `H0 = 1`) instead of failing;
the spec-modelled checker `ageChecked` shows what the claim demanded. -/
theorem friedmann_no_error_counterexample :
    age 1 1 = 2/3 ∧
    ageChecked 1 1 = Except.error FriedmannError.numericalInstability := by
  constructor
  · rw [age, ageIntegral_one]; norm_num
  · rw [ageChecked, if_pos (Or.inr le_rfl)]

/-- Amended claim C6: the integrator performs no domain validation and has
no failure channel — it is a total real-valued function; for the
domain-violating input `Ωm = 1` it returns the finite value `(2/3)·H0⁻¹`
rather than any error. -/
theorem friedmann_no_validation :
    ∀ h0 : ℝ, age 1 h0 = 2/3 * h0⁻¹ := by
  intro h0
  rw [age, ageIntegral_one]; ring

/-! ### Claim C8 (corrected): the quadrature error estimate is discarded -/

/-- Counterexample to claim C8: the notebook's postprocessing of a `quad`
result pair is insensitive to the reported error estimate — a pair whose
error component (37) wildly exceeds any tolerance produces the same age as
one with zero reported error, while the spec-modelled check rejects it. -/
theorem quad_error_discarded_counterexample :
    ageFromQuad (1, 37) = ageFromQuad (1, 0) ∧
    quadChecked (1, 37) (1e-6) = Except.error FriedmannError.numericalInstability ∧
    ageVal = ageFromQuad (ageIntegral omegam, 37) := by
  refine ⟨rfl, ?_, ?_⟩
  · rw [quadChecked, if_neg]
    norm_num
  · rw [ageVal, age, ageFromQuad]

/-- Amended claim C8: both the age and the diameter are computed from the
value component `[0]` of `quad`'s `(value, abserr)` pair alone; the error
estimate is discarded, never compared against a tolerance, and no failure
occurs. -/
theorem quad_error_discarded :
    (∀ v e1 e2 : ℝ, ageFromQuad (v, e1) = ageFromQuad (v, e2) ∧
      diamFromQuad (v, e1) = diamFromQuad (v, e2)) ∧
    (∀ e : ℝ, ageVal = ageFromQuad (ageIntegral omegam, e) ∧
      diameterVal = diamFromQuad (diamIntegral omegam, e)) := by
  constructor
  · intro v e1 e2; exact ⟨rfl, rfl⟩
  · intro e
    constructor
    · rw [ageVal, age, ageFromQuad]
    · rw [diameterVal, diameter, diamFromQuad]

/-! ### Change of variables `a = t²` for the two quadratures -/

theorem qfun_pos (t : ℝ) : 0 < omegam + (1 - omegam) * t^6 := by
  have h6 : 0 ≤ t^6 := by positivity
  rw [omegam]
  nlinarith [h6]

theorem sqrt_qfun_pos (t : ℝ) : 0 < Real.sqrt (omegam + (1 - omegam) * t^6) :=
  Real.sqrt_pos.mpr (qfun_pos t)

theorem continuous_qfun : Continuous fun t : ℝ => omegam + (1 - omegam) * t^6 :=
  continuous_const.add (continuous_const.mul (continuous_pow 6))

theorem continuous_phiFun : Continuous phiFun :=
  (continuous_const.mul (continuous_pow 2)).mul
    ((Real.continuous_sqrt.comp continuous_qfun).inv₀
      fun t => ne_of_gt (sqrt_qfun_pos t))

theorem continuous_psiFun : Continuous psiFun :=
  continuous_const.mul
    ((Real.continuous_sqrt.comp continuous_qfun).inv₀
      fun t => ne_of_gt (sqrt_qfun_pos t))

theorem sq_image_Ioo :
    (fun t : ℝ => t^2) '' Set.Ioo 0 1 = Set.Ioo (0:ℝ) 1 := by
  ext x
  constructor
  · rintro ⟨t, ⟨ht0, ht1⟩, rfl⟩
    refine ⟨by positivity, ?_⟩
    show t^2 < 1
    nlinarith
  · intro hx
    refine ⟨Real.sqrt x, ⟨Real.sqrt_pos.mpr hx.1, ?_⟩, Real.sq_sqrt hx.1.le⟩
    calc Real.sqrt x < Real.sqrt 1 := Real.sqrt_lt_sqrt hx.1.le hx.2
    _ = 1 := Real.sqrt_one

theorem sq_hasDerivWithinAt :
    ∀ x ∈ Set.Ioo (0:ℝ) 1,
      HasDerivWithinAt (fun t : ℝ => t^2) (2 * x) (Set.Ioo 0 1) x := by
  intro x _
  have h := (hasDerivAt_pow 2 x).hasDerivWithinAt (s := Set.Ioo (0:ℝ) 1)
  simpa using h

theorem sq_injOn : Set.InjOn (fun t : ℝ => t^2) (Set.Ioo 0 1) := by
  intro a ha b hb h
  dsimp at h
  have h2 : Real.sqrt (a^2) = Real.sqrt (b^2) := by rw [h]
  rwa [Real.sqrt_sq ha.1.le, Real.sqrt_sq hb.1.le] at h2

/-- `E` at a square argument, for `t > 0`. -/
theorem E_at_sq (t : ℝ) (ht : 0 < t) :
    E omegam (t^2) = Real.sqrt (omegam + (1 - omegam) * t^6) * (t^3)⁻¹ := by
  rw [E]
  have h1 : omegam * ((t^2)^3)⁻¹ + (1 - omegam)
      = (omegam + (1 - omegam) * t^6) * (t^6)⁻¹ := by
    field_simp
    ring
  rw [h1, Real.sqrt_mul (qfun_pos t).le, Real.sqrt_inv]
  have h2 : t^6 = (t^3)^2 := by ring
  rw [h2, Real.sqrt_sq (by positivity)]

/-- Substitution `a = t²` for the age quadrature. -/
theorem ageIntegral_eq_phi : ageIntegral omegam = ∫ t in (0:ℝ)..1, phiFun t := by
  have h01 : (0:ℝ) ≤ 1 := by norm_num
  have hmain :
      ∫ a in Set.Ioo (0:ℝ) 1, 1 / (a * E omegam a)
        = ∫ t in Set.Ioo (0:ℝ) 1, phiFun t := by
    have himg := MeasureTheory.integral_image_eq_integral_abs_deriv_smul
      measurableSet_Ioo sq_hasDerivWithinAt sq_injOn
      (fun a : ℝ => 1 / (a * E omegam a))
    rw [sq_image_Ioo] at himg
    rw [himg]
    apply MeasureTheory.setIntegral_congr_fun measurableSet_Ioo
    intro t ht
    have ht0 : 0 < t := ht.1
    have habs : |2 * t| = 2 * t := abs_of_pos (by linarith)
    have hsq := sqrt_qfun_pos t
    simp only [smul_eq_mul]
    rw [habs, E_at_sq t ht0, phiFun]
    field_simp
    ring
  rw [ageIntegral, intervalIntegral.integral_of_le h01,
    MeasureTheory.integral_Ioc_eq_integral_Ioo, hmain,
    ← MeasureTheory.integral_Ioc_eq_integral_Ioo,
    ← intervalIntegral.integral_of_le h01]

/-- Substitution `a = t²` for the diameter quadrature. -/
theorem diamIntegral_eq_psi : diamIntegral omegam = ∫ t in (0:ℝ)..1, psiFun t := by
  have h01 : (0:ℝ) ≤ 1 := by norm_num
  have hmain :
      ∫ a in Set.Ioo (0:ℝ) 1, 1 / (a^2 * E omegam a)
        = ∫ t in Set.Ioo (0:ℝ) 1, psiFun t := by
    have himg := MeasureTheory.integral_image_eq_integral_abs_deriv_smul
      measurableSet_Ioo sq_hasDerivWithinAt sq_injOn
      (fun a : ℝ => 1 / (a^2 * E omegam a))
    rw [sq_image_Ioo] at himg
    rw [himg]
    apply MeasureTheory.setIntegral_congr_fun measurableSet_Ioo
    intro t ht
    have ht0 : 0 < t := ht.1
    have habs : |2 * t| = 2 * t := abs_of_pos (by linarith)
    have hsq := sqrt_qfun_pos t
    simp only [smul_eq_mul]
    rw [habs, E_at_sq t ht0, psiFun]
    field_simp
    ring
  rw [diamIntegral, intervalIntegral.integral_of_le h01,
    MeasureTheory.integral_Ioc_eq_integral_Ioo, hmain,
    ← MeasureTheory.integral_Ioc_eq_integral_Ioo,
    ← intervalIntegral.integral_of_le h01]

/-! ### Riemann bounds on a uniform mesh -/

/-- Assembling per-cell upper bounds into a bound on `∫₀¹`. -/
theorem integral_le_sum_of_piece (g : ℝ → ℝ) (hg : Continuous g) (N : ℕ)
    (hN : 0 < N) (M : ℕ → ℝ)
    (hpiece : ∀ k, k < N →
      ∫ t in ((k:ℝ)/(N:ℝ))..(((k+1:ℕ):ℝ)/(N:ℝ)), g t ≤ M k) :
    ∫ t in (0:ℝ)..1, g t ≤ ∑ k ∈ Finset.range N, M k := by
  have hNr : (0:ℝ) < (N:ℝ) := by exact_mod_cast hN
  have hint : ∀ k, k < N → IntervalIntegrable g MeasureTheory.volume
      ((fun j : ℕ => (j:ℝ)/(N:ℝ)) k) ((fun j : ℕ => (j:ℝ)/(N:ℝ)) (k+1)) :=
    fun k _ => hg.intervalIntegrable _ _
  have hsum := intervalIntegral.sum_integral_adjacent_intervals hint
  have h0 : ((0:ℕ):ℝ)/(N:ℝ) = 0 := by simp
  have h1 : ((N:ℕ):ℝ)/(N:ℝ) = 1 := by field_simp
  rw [h0, h1] at hsum
  rw [← hsum]
  exact Finset.sum_le_sum fun k hk => hpiece k (Finset.mem_range.mp hk)

/-- Assembling per-cell lower bounds into a bound on `∫₀¹`. -/
theorem sum_le_integral_of_piece (g : ℝ → ℝ) (hg : Continuous g) (N : ℕ)
    (hN : 0 < N) (m : ℕ → ℝ)
    (hpiece : ∀ k, k < N →
      m k ≤ ∫ t in ((k:ℝ)/(N:ℝ))..(((k+1:ℕ):ℝ)/(N:ℝ)), g t) :
    ∑ k ∈ Finset.range N, m k ≤ ∫ t in (0:ℝ)..1, g t := by
  have hNr : (0:ℝ) < (N:ℝ) := by exact_mod_cast hN
  have hint : ∀ k, k < N → IntervalIntegrable g MeasureTheory.volume
      ((fun j : ℕ => (j:ℝ)/(N:ℝ)) k) ((fun j : ℕ => (j:ℝ)/(N:ℝ)) (k+1)) :=
    fun k _ => hg.intervalIntegrable _ _
  have hsum := intervalIntegral.sum_integral_adjacent_intervals hint
  have h0 : ((0:ℕ):ℝ)/(N:ℝ) = 0 := by simp
  have h1 : ((N:ℕ):ℝ)/(N:ℝ) = 1 := by field_simp
  rw [h0, h1] at hsum
  rw [← hsum]
  exact Finset.sum_le_sum fun k hk => hpiece k (Finset.mem_range.mp hk)

/-- On one cell, an upper bound `C` for the inverse square root gives the
bound `2C (y³-x³)/3` on `∫ phiFun`. -/
theorem phi_piece_le (x y C : ℝ) (hx : 0 ≤ x) (hxy : x ≤ y) (hC : 0 ≤ C)
    (hbd : ∀ t ∈ Set.Icc x y,
      (Real.sqrt (omegam + (1 - omegam) * t^6))⁻¹ ≤ C) :
    ∫ t in x..y, phiFun t ≤ 2 * C * (y^3 - x^3) / 3 := by
  have h1 : ∫ t in x..y, phiFun t ≤ ∫ t in x..y, 2 * C * t^2 := by
    apply intervalIntegral.integral_mono_on hxy
      (continuous_phiFun.intervalIntegrable x y)
      ((continuous_const.mul (continuous_pow 2)).intervalIntegrable x y)
    intro t ht
    have ht0 : 0 ≤ t := le_trans hx ht.1
    have hb := hbd t ht
    have hinv : 0 ≤ (Real.sqrt (omegam + (1 - omegam) * t^6))⁻¹ := by positivity
    rw [phiFun]
    nlinarith [sq_nonneg t]
  have h2 : ∫ t in x..y, 2 * C * t^2 = 2 * C * (y^3 - x^3) / 3 := by
    rw [intervalIntegral.integral_const_mul, integral_pow]
    norm_num
    ring
  linarith [h1, h2.le, h2.ge]

/-- On one cell, a lower bound `C` for the inverse square root gives the
bound `2C (y³-x³)/3` below `∫ phiFun`. -/
theorem phi_piece_ge (x y C : ℝ) (hx : 0 ≤ x) (hxy : x ≤ y) (hC : 0 ≤ C)
    (hbd : ∀ t ∈ Set.Icc x y,
      C ≤ (Real.sqrt (omegam + (1 - omegam) * t^6))⁻¹) :
    2 * C * (y^3 - x^3) / 3 ≤ ∫ t in x..y, phiFun t := by
  have h1 : ∫ t in x..y, 2 * C * t^2 ≤ ∫ t in x..y, phiFun t := by
    apply intervalIntegral.integral_mono_on hxy
      ((continuous_const.mul (continuous_pow 2)).intervalIntegrable x y)
      (continuous_phiFun.intervalIntegrable x y)
    intro t ht
    have ht0 : 0 ≤ t := le_trans hx ht.1
    have hb := hbd t ht
    rw [phiFun]
    nlinarith [sq_nonneg t]
  have h2 : ∫ t in x..y, 2 * C * t^2 = 2 * C * (y^3 - x^3) / 3 := by
    rw [intervalIntegral.integral_const_mul, integral_pow]
    norm_num
    ring
  linarith [h1, h2.le, h2.ge]

/-- On one cell, an upper bound `C` for the inverse square root gives the
bound `2C (y-x)` on `∫ psiFun`. -/
theorem psi_piece_le (x y C : ℝ) (hxy : x ≤ y) (hC : 0 ≤ C)
    (hbd : ∀ t ∈ Set.Icc x y,
      (Real.sqrt (omegam + (1 - omegam) * t^6))⁻¹ ≤ C) :
    ∫ t in x..y, psiFun t ≤ 2 * C * (y - x) := by
  have h1 : ∫ t in x..y, psiFun t ≤ ∫ t in x..y, (fun _ : ℝ => 2 * C) t := by
    apply intervalIntegral.integral_mono_on hxy
      (continuous_psiFun.intervalIntegrable x y)
      (continuous_const.intervalIntegrable x y)
    intro t ht
    have hb := hbd t ht
    rw [psiFun]
    linarith
  have h2 : ∫ _ in x..y, (2 * C : ℝ) = (y - x) * (2 * C) :=
    intervalIntegral.integral_const _
  rw [h2] at h1
  linarith

/-- On one cell, a lower bound `C` for the inverse square root gives the
bound `2C (y-x)` below `∫ psiFun`. -/
theorem psi_piece_ge (x y C : ℝ) (hxy : x ≤ y) (hC : 0 ≤ C)
    (hbd : ∀ t ∈ Set.Icc x y,
      C ≤ (Real.sqrt (omegam + (1 - omegam) * t^6))⁻¹) :
    2 * C * (y - x) ≤ ∫ t in x..y, psiFun t := by
  have h1 : ∫ t in x..y, (fun _ : ℝ => 2 * C) t ≤ ∫ t in x..y, psiFun t := by
    apply intervalIntegral.integral_mono_on hxy
      (continuous_const.intervalIntegrable x y)
      (continuous_psiFun.intervalIntegrable x y)
    intro t ht
    have hb := hbd t ht
    rw [psiFun]
    linarith
  have h2 : ∫ _ in x..y, (2 * C : ℝ) = (y - x) * (2 * C) :=
    intervalIntegral.integral_const _
  rw [h2] at h1
  linarith

/-! ### Mesh-point bounds on the inverse square root -/

theorem AA_pos (i : ℕ) : 0 < AA i := by
  have h : 0 < 3153 * meshN^6 := by norm_num [meshN]
  exact Nat.lt_of_lt_of_le h (Nat.le_add_right _ _)

theorem AA_zero_le (i : ℕ) : AA 0 ≤ AA i := by
  have h : AA 0 = 3153 * meshN^6 := by norm_num [AA]
  rw [h, AA]
  exact Nat.le_add_right _ _

theorem arg_lt_big (i : ℕ) : sqScale^2 * DD / AA i < 2^64 := by
  have h1 : sqScale^2 * DD / AA i ≤ sqScale^2 * DD / AA 0 :=
    Nat.div_le_div_left (AA_zero_le i) (AA_pos 0)
  have h2 : sqScale^2 * DD / AA 0 < 2^64 := by
    norm_num [sqScale, DD, AA, meshN]
  exact Nat.lt_of_le_of_lt h1 h2

/-- The value of `q` at the mesh point `i / meshN` as a ratio of naturals. -/
theorem q_at_mesh (i : ℕ) :
    omegam + (1 - omegam) * (((i:ℝ))/((meshN:ℕ):ℝ))^6 = (AA i : ℝ) / (DD : ℝ) := by
  rw [omegam, AA, DD, meshN]
  push_cast
  norm_num
  field_simp
  ring

/-- Left-endpoint upper bound: for `t ≥ i/meshN`,
`1/√(q t) ≤ uB i / sqScale`. -/
theorem invSqrt_le_uB (i : ℕ) (t : ℝ) (hleft : ((i:ℝ))/((meshN:ℕ):ℝ) ≤ t) :
    (Real.sqrt (omegam + (1 - omegam) * t^6))⁻¹ ≤ (uB i : ℝ) / (sqScale : ℝ) := by
  have hi0 : (0:ℝ) ≤ (i:ℝ)/((meshN:ℕ):ℝ) := by positivity
  have h6 : (((i:ℝ))/((meshN:ℕ):ℝ))^6 ≤ t^6 := pow_le_pow_left hi0 hleft 6
  have hco : (0:ℝ) ≤ 1 - omegam := by rw [omegam]; norm_num
  have hq : omegam + (1 - omegam) * (((i:ℝ))/((meshN:ℕ):ℝ))^6
      ≤ omegam + (1 - omegam) * t^6 := by nlinarith
  have hqm := q_at_mesh i
  have hAD : (0:ℝ) < (AA i : ℝ) / (DD : ℝ) := by
    rw [← hqm]; exact qfun_pos _
  have step1 : (Real.sqrt (omegam + (1 - omegam) * t^6))⁻¹
      ≤ (Real.sqrt ((AA i : ℝ) / (DD : ℝ)))⁻¹ := by
    apply inv_le_inv_of_le (Real.sqrt_pos.mpr hAD)
    rw [← hqm]
    exact Real.sqrt_le_sqrt hq
  have step2 : (Real.sqrt ((AA i : ℝ) / (DD : ℝ)))⁻¹
      = Real.sqrt ((DD : ℝ) / (AA i : ℝ)) := by
    rw [← Real.sqrt_inv, inv_div]
  have step3 : Real.sqrt ((DD : ℝ) / (AA i : ℝ))
      ≤ ((isqrt (sqScale * sqScale * DD / AA i) + 1 : ℕ) : ℝ) / (sqScale : ℝ) := by
    apply sqrt_div_le_isqrt DD (AA i) sqScale (AA_pos i) (by norm_num [sqScale])
    have h := arg_lt_big i
    rwa [pow_two] at h
  have huB : (uB i : ℕ) = isqrt (sqScale * sqScale * DD / AA i) + 1 := by
    rw [uB, pow_two]
  calc (Real.sqrt (omegam + (1 - omegam) * t^6))⁻¹
      ≤ (Real.sqrt ((AA i : ℝ) / (DD : ℝ)))⁻¹ := step1
  _ = Real.sqrt ((DD : ℝ) / (AA i : ℝ)) := step2
  _ ≤ ((isqrt (sqScale * sqScale * DD / AA i) + 1 : ℕ) : ℝ) / (sqScale : ℝ) := step3
  _ = (uB i : ℝ) / (sqScale : ℝ) := by rw [huB]

/-- Right-endpoint lower bound: for `0 ≤ t ≤ i/meshN`,
`lB i / sqScale ≤ 1/√(q t)`. -/
theorem lB_le_invSqrt (i : ℕ) (t : ℝ) (ht0 : 0 ≤ t)
    (hright : t ≤ ((i:ℝ))/((meshN:ℕ):ℝ)) :
    (lB i : ℝ) / (sqScale : ℝ) ≤ (Real.sqrt (omegam + (1 - omegam) * t^6))⁻¹ := by
  have h6 : t^6 ≤ (((i:ℝ))/((meshN:ℕ):ℝ))^6 := pow_le_pow_left ht0 hright 6
  have hco : (0:ℝ) ≤ 1 - omegam := by rw [omegam]; norm_num
  have hq : omegam + (1 - omegam) * t^6
      ≤ omegam + (1 - omegam) * (((i:ℝ))/((meshN:ℕ):ℝ))^6 := by nlinarith
  have hqm := q_at_mesh i
  have hqt : (0:ℝ) < omegam + (1 - omegam) * t^6 := qfun_pos t
  have step1 : (Real.sqrt ((AA i : ℝ) / (DD : ℝ)))⁻¹
      ≤ (Real.sqrt (omegam + (1 - omegam) * t^6))⁻¹ := by
    apply inv_le_inv_of_le (Real.sqrt_pos.mpr hqt)
    rw [← hqm]
    exact Real.sqrt_le_sqrt hq
  have step2 : (Real.sqrt ((AA i : ℝ) / (DD : ℝ)))⁻¹
      = Real.sqrt ((DD : ℝ) / (AA i : ℝ)) := by
    rw [← Real.sqrt_inv, inv_div]
  have step3 : ((isqrt (sqScale * sqScale * DD / AA i) : ℕ) : ℝ) / (sqScale : ℝ)
      ≤ Real.sqrt ((DD : ℝ) / (AA i : ℝ)) :=
    isqrt_le_sqrt_div DD (AA i) sqScale (AA_pos i)
  have hlB : (lB i : ℕ) = isqrt (sqScale * sqScale * DD / AA i) := by
    rw [lB, pow_two]
  calc (lB i : ℝ) / (sqScale : ℝ)
      = ((isqrt (sqScale * sqScale * DD / AA i) : ℕ) : ℝ) / (sqScale : ℝ) := by rw [hlB]
  _ ≤ Real.sqrt ((DD : ℝ) / (AA i : ℝ)) := step3
  _ = (Real.sqrt ((AA i : ℝ) / (DD : ℝ)))⁻¹ := step2.symm
  _ ≤ (Real.sqrt (omegam + (1 - omegam) * t^6))⁻¹ := step1

/-! ### Certified enclosures of the two integrals -/

theorem meshN_pos : 0 < meshN := by norm_num [meshN]

theorem meshN_real_pos : (0:ℝ) < ((meshN:ℕ):ℝ) := by norm_num [meshN]

theorem mesh_step_le (k : ℕ) :
    ((k:ℝ))/((meshN:ℕ):ℝ) ≤ (((k+1:ℕ)):ℝ)/((meshN:ℕ):ℝ) := by
  gcongr
  push_cast
  linarith

theorem ageIntegral_le :
    ageIntegral omegam ≤
      2 / (3 * ((meshN:ℕ):ℝ)^3 * ((sqScale:ℕ):ℝ)) * ((ageUpN : ℕ) : ℝ) := by
  rw [ageIntegral_eq_phi]
  have key := integral_le_sum_of_piece phiFun continuous_phiFun meshN meshN_pos
    (fun k => 2 * ((uB k : ℝ)/((sqScale:ℕ):ℝ)) *
      (((((k+1:ℕ)):ℝ)/((meshN:ℕ):ℝ))^3 - (((k:ℕ):ℝ)/((meshN:ℕ):ℝ))^3) / 3)
    (by
      intro k _
      apply phi_piece_le _ _ _ (by positivity) (mesh_step_le k) (by positivity)
      intro t ht
      exact invSqrt_le_uB k t ht.1)
  have hterm : ∀ k ∈ Finset.range meshN,
      2 * ((uB k : ℝ)/((sqScale:ℕ):ℝ)) *
        (((((k+1:ℕ)):ℝ)/((meshN:ℕ):ℝ))^3 - (((k:ℕ):ℝ)/((meshN:ℕ):ℝ))^3) / 3
      = 2 / (3 * ((meshN:ℕ):ℝ)^3 * ((sqScale:ℕ):ℝ)) *
          (((((k+1)^3 - k^3) * uB k : ℕ)) : ℝ) := by
    intro k _
    have hle : (k:ℕ)^3 ≤ (k+1)^3 := Nat.pow_le_pow_left (Nat.le_succ k) 3
    push_cast [Nat.cast_sub hle]
    have hN := meshN_real_pos
    have hS : (0:ℝ) < ((sqScale:ℕ):ℝ) := by norm_num [sqScale]
    field_simp
    ring
  calc ∫ t in (0:ℝ)..1, phiFun t
      ≤ ∑ k ∈ Finset.range meshN,
        2 * ((uB k : ℝ)/((sqScale:ℕ):ℝ)) *
          (((((k+1:ℕ)):ℝ)/((meshN:ℕ):ℝ))^3 - (((k:ℕ):ℝ)/((meshN:ℕ):ℝ))^3) / 3 := key
  _ = ∑ k ∈ Finset.range meshN,
        2 / (3 * ((meshN:ℕ):ℝ)^3 * ((sqScale:ℕ):ℝ)) *
          (((((k+1)^3 - k^3) * uB k : ℕ)) : ℝ) := Finset.sum_congr rfl hterm
  _ = 2 / (3 * ((meshN:ℕ):ℝ)^3 * ((sqScale:ℕ):ℝ)) *
        ∑ k ∈ Finset.range meshN, (((((k+1)^3 - k^3) * uB k : ℕ)) : ℝ) :=
      (Finset.mul_sum _ _ _).symm
  _ = 2 / (3 * ((meshN:ℕ):ℝ)^3 * ((sqScale:ℕ):ℝ)) * ((ageUpN : ℕ) : ℝ) := by
      rw [ageUpN, natSum_eq_sum]
      push_cast
      ring

theorem ageIntegral_ge :
    2 / (3 * ((meshN:ℕ):ℝ)^3 * ((sqScale:ℕ):ℝ)) * ((ageLoN : ℕ) : ℝ)
      ≤ ageIntegral omegam := by
  rw [ageIntegral_eq_phi]
  have key := sum_le_integral_of_piece phiFun continuous_phiFun meshN meshN_pos
    (fun k => 2 * ((lB (k+1) : ℝ)/((sqScale:ℕ):ℝ)) *
      (((((k+1:ℕ)):ℝ)/((meshN:ℕ):ℝ))^3 - (((k:ℕ):ℝ)/((meshN:ℕ):ℝ))^3) / 3)
    (by
      intro k _
      apply phi_piece_ge _ _ _ (by positivity) (mesh_step_le k) (by positivity)
      intro t ht
      exact lB_le_invSqrt (k+1) t (le_trans (by positivity) ht.1) ht.2)
  have hterm : ∀ k ∈ Finset.range meshN,
      2 * ((lB (k+1) : ℝ)/((sqScale:ℕ):ℝ)) *
        (((((k+1:ℕ)):ℝ)/((meshN:ℕ):ℝ))^3 - (((k:ℕ):ℝ)/((meshN:ℕ):ℝ))^3) / 3
      = 2 / (3 * ((meshN:ℕ):ℝ)^3 * ((sqScale:ℕ):ℝ)) *
          (((((k+1)^3 - k^3) * lB (k+1) : ℕ)) : ℝ) := by
    intro k _
    have hle : (k:ℕ)^3 ≤ (k+1)^3 := Nat.pow_le_pow_left (Nat.le_succ k) 3
    push_cast [Nat.cast_sub hle]
    have hN := meshN_real_pos
    have hS : (0:ℝ) < ((sqScale:ℕ):ℝ) := by norm_num [sqScale]
    field_simp
    ring
  calc 2 / (3 * ((meshN:ℕ):ℝ)^3 * ((sqScale:ℕ):ℝ)) * ((ageLoN : ℕ) : ℝ)
      = 2 / (3 * ((meshN:ℕ):ℝ)^3 * ((sqScale:ℕ):ℝ)) *
        ∑ k ∈ Finset.range meshN, (((((k+1)^3 - k^3) * lB (k+1) : ℕ)) : ℝ) := by
        rw [ageLoN, natSum_eq_sum]
        push_cast
        ring
  _ = ∑ k ∈ Finset.range meshN,
        2 / (3 * ((meshN:ℕ):ℝ)^3 * ((sqScale:ℕ):ℝ)) *
          (((((k+1)^3 - k^3) * lB (k+1) : ℕ)) : ℝ) := Finset.mul_sum _ _ _
  _ = ∑ k ∈ Finset.range meshN,
        2 * ((lB (k+1) : ℝ)/((sqScale:ℕ):ℝ)) *
          (((((k+1:ℕ)):ℝ)/((meshN:ℕ):ℝ))^3 - (((k:ℕ):ℝ)/((meshN:ℕ):ℝ))^3) / 3 :=
      (Finset.sum_congr rfl hterm).symm
  _ ≤ ∫ t in (0:ℝ)..1, phiFun t := key

theorem diamIntegral_le :
    diamIntegral omegam ≤
      2 / (((meshN:ℕ):ℝ) * ((sqScale:ℕ):ℝ)) * ((diamUpN : ℕ) : ℝ) := by
  rw [diamIntegral_eq_psi]
  have key := integral_le_sum_of_piece psiFun continuous_psiFun meshN meshN_pos
    (fun k => 2 * ((uB k : ℝ)/((sqScale:ℕ):ℝ)) *
      (((((k+1:ℕ)):ℝ)/((meshN:ℕ):ℝ)) - (((k:ℕ):ℝ)/((meshN:ℕ):ℝ))))
    (by
      intro k _
      apply psi_piece_le _ _ _ (mesh_step_le k) (by positivity)
      intro t ht
      exact invSqrt_le_uB k t ht.1)
  have hterm : ∀ k ∈ Finset.range meshN,
      2 * ((uB k : ℝ)/((sqScale:ℕ):ℝ)) *
        (((((k+1:ℕ)):ℝ)/((meshN:ℕ):ℝ)) - (((k:ℕ):ℝ)/((meshN:ℕ):ℝ)))
      = 2 / (((meshN:ℕ):ℝ) * ((sqScale:ℕ):ℝ)) * ((uB k : ℕ) : ℝ) := by
    intro k _
    push_cast
    rw [div_sub_div_same]
    have h1 : ((k:ℝ) + 1 - k) = 1 := by ring
    rw [h1]
    have hN := meshN_real_pos
    have hS : (0:ℝ) < ((sqScale:ℕ):ℝ) := by norm_num [sqScale]
    field_simp
    left
    ring
  calc ∫ t in (0:ℝ)..1, psiFun t
      ≤ ∑ k ∈ Finset.range meshN,
        2 * ((uB k : ℝ)/((sqScale:ℕ):ℝ)) *
          (((((k+1:ℕ)):ℝ)/((meshN:ℕ):ℝ)) - (((k:ℕ):ℝ)/((meshN:ℕ):ℝ))) := key
  _ = ∑ k ∈ Finset.range meshN,
        2 / (((meshN:ℕ):ℝ) * ((sqScale:ℕ):ℝ)) * ((uB k : ℕ) : ℝ) :=
      Finset.sum_congr rfl hterm
  _ = 2 / (((meshN:ℕ):ℝ) * ((sqScale:ℕ):ℝ)) *
        ∑ k ∈ Finset.range meshN, ((uB k : ℕ) : ℝ) := (Finset.mul_sum _ _ _).symm
  _ = 2 / (((meshN:ℕ):ℝ) * ((sqScale:ℕ):ℝ)) * ((diamUpN : ℕ) : ℝ) := by
      rw [diamUpN, natSum_eq_sum]
      push_cast
      ring

theorem diamIntegral_ge :
    2 / (((meshN:ℕ):ℝ) * ((sqScale:ℕ):ℝ)) * ((diamLoN : ℕ) : ℝ)
      ≤ diamIntegral omegam := by
  rw [diamIntegral_eq_psi]
  have key := sum_le_integral_of_piece psiFun continuous_psiFun meshN meshN_pos
    (fun k => 2 * ((lB (k+1) : ℝ)/((sqScale:ℕ):ℝ)) *
      (((((k+1:ℕ)):ℝ)/((meshN:ℕ):ℝ)) - (((k:ℕ):ℝ)/((meshN:ℕ):ℝ))))
    (by
      intro k _
      apply psi_piece_ge _ _ _ (mesh_step_le k) (by positivity)
      intro t ht
      exact lB_le_invSqrt (k+1) t (le_trans (by positivity) ht.1) ht.2)
  have hterm : ∀ k ∈ Finset.range meshN,
      2 * ((lB (k+1) : ℝ)/((sqScale:ℕ):ℝ)) *
        (((((k+1:ℕ)):ℝ)/((meshN:ℕ):ℝ)) - (((k:ℕ):ℝ)/((meshN:ℕ):ℝ)))
      = 2 / (((meshN:ℕ):ℝ) * ((sqScale:ℕ):ℝ)) * ((lB (k+1) : ℕ) : ℝ) := by
    intro k _
    push_cast
    rw [div_sub_div_same]
    have h1 : ((k:ℝ) + 1 - k) = 1 := by ring
    rw [h1]
    have hN := meshN_real_pos
    have hS : (0:ℝ) < ((sqScale:ℕ):ℝ) := by norm_num [sqScale]
    field_simp
    left
    ring
  calc 2 / (((meshN:ℕ):ℝ) * ((sqScale:ℕ):ℝ)) * ((diamLoN : ℕ) : ℝ)
      = 2 / (((meshN:ℕ):ℝ) * ((sqScale:ℕ):ℝ)) *
        ∑ k ∈ Finset.range meshN, ((lB (k+1) : ℕ) : ℝ) := by
        rw [diamLoN, natSum_eq_sum]
        push_cast
        ring
  _ = ∑ k ∈ Finset.range meshN,
        2 / (((meshN:ℕ):ℝ) * ((sqScale:ℕ):ℝ)) * ((lB (k+1) : ℕ) : ℝ) :=
      Finset.mul_sum _ _ _
  _ = ∑ k ∈ Finset.range meshN,
        2 * ((lB (k+1) : ℝ)/((sqScale:ℕ):ℝ)) *
          (((((k+1:ℕ)):ℝ)/((meshN:ℕ):ℝ)) - (((k:ℕ):ℝ)/((meshN:ℕ):ℝ))) :=
      (Finset.sum_congr rfl hterm).symm
  _ ≤ ∫ t in (0:ℝ)..1, psiFun t := key

/-! ### Kernel evaluation of the Riemann sums -/

theorem ageUpN_eq : ageUpN = 1532057197393872 := by decide

theorem ageLoN_eq : ageLoN = 1530460087561527 := by decide

theorem diamUpN_eq : diamUpN = 1658721906 := by decide

theorem diamLoN_eq : diamLoN = 1657939989 := by decide

/-! ### Claim C4: the numerical age and diameter -/

/-- Claim C4: for the notebook's inputs `H0 = 67.36 km/s/Mpc`,
`Ωm = 0.3153`, the age is `13.81 Gyr` and the comoving diameter is
`28.83 Gpc`, both to within `±0.01`. -/
theorem age_diameter_values :
    |ageVal / GyrVal - 13.81| ≤ 0.01 ∧
    |diameterVal / 1e2 / (kpcVal * 1e6) - 28.83| ≤ 0.01 := by
  have hup := ageIntegral_le
  have hlo := ageIntegral_ge
  rw [ageUpN_eq] at hup
  rw [ageLoN_eq] at hlo
  have hdup := diamIntegral_le
  have hdlo := diamIntegral_ge
  rw [diamUpN_eq] at hdup
  rw [diamLoN_eq] at hdlo
  norm_num [meshN, sqScale] at hup hlo hdup hdlo
  constructor
  · rw [ageVal, age, H0cgs, GyrVal, H0val, kpcVal, abs_le]
    constructor
    · nlinarith [hlo, hup]
    · nlinarith [hlo, hup]
  · rw [diameterVal, diameter, H0cgs, H0val, kpcVal, cCmPerS, abs_le]
    constructor
    · nlinarith [hdlo, hdup]
    · nlinarith [hdlo, hdup]

/-! ### Claim C5: the Planck-unit round trip -/

theorem tPdims_val : tPdimsTriple = (-5/2, 1/2, 1/2) := by
  have hdet : det3 cDims hbarDims GDims = -2 := by
    norm_num [det3, cDims, hbarDims, GDims]
  rw [tPdimsTriple, solveDims, hdet]
  norm_num [det3, cDims, hbarDims, GDims, timeTarget]

theorem lPdims_val : lPdimsTriple = (-3/2, 1/2, 1/2) := by
  have hdet : det3 cDims hbarDims GDims = -2 := by
    norm_num [det3, cDims, hbarDims, GDims]
  rw [lPdimsTriple, solveDims, hdet]
  norm_num [det3, cDims, hbarDims, GDims, lengthTarget]

/-- The notebook's `t_p_cgs` is `√(ħ G / c⁵)` (in seconds). -/
theorem tPcgs_eq : tPcgs = Real.sqrt (hbarSI * GSI / cSI^5) := by
  rw [tPcgs, tPdims_val]
  have hc : (0:ℝ) < cSI := by norm_num [cSI]
  have hh : (0:ℝ) ≤ hbarSI := by norm_num [hbarSI]
  have hg : (0:ℝ) ≤ GSI := by norm_num [GSI]
  have e1 : (((-5/2 : ℚ) : ℝ)) = -(((5:ℕ):ℝ) * (1/2)) := by norm_num
  have e2 : (((1/2 : ℚ) : ℝ)) = (1/2 : ℝ) := by norm_num
  simp only [e1, e2]
  rw [Real.rpow_neg hc.le, Real.rpow_natCast_mul hc.le]
  rw [← Real.sqrt_eq_rpow, ← Real.sqrt_eq_rpow, ← Real.sqrt_eq_rpow]
  rw [← Real.sqrt_inv, ← Real.sqrt_mul (by positivity), ← Real.sqrt_mul (by positivity)]
  congr 1
  field_simp

/-- The notebook's `l_p_cgs` is `√(ħ G / c³) · 100` (in centimetres). -/
theorem lPcgs_eq : lPcgs = Real.sqrt (hbarSI * GSI / cSI^3) * 100 := by
  rw [lPcgs, lPdims_val]
  have hc : (0:ℝ) < cSI := by norm_num [cSI]
  have hh : (0:ℝ) ≤ hbarSI := by norm_num [hbarSI]
  have hg : (0:ℝ) ≤ GSI := by norm_num [GSI]
  have e1 : (((-3/2 : ℚ) : ℝ)) = -(((3:ℕ):ℝ) * (1/2)) := by norm_num
  have e2 : (((1/2 : ℚ) : ℝ)) = (1/2 : ℝ) := by norm_num
  simp only [e1, e2]
  rw [Real.rpow_neg hc.le, Real.rpow_natCast_mul hc.le]
  rw [← Real.sqrt_eq_rpow, ← Real.sqrt_eq_rpow, ← Real.sqrt_eq_rpow]
  rw [← Real.sqrt_inv, ← Real.sqrt_mul (by positivity), ← Real.sqrt_mul (by positivity)]
  congr 2
  field_simp

theorem tP_frac : hbarSI * GSI / cSI^5
    = ((703852868251574232795 : ℕ) : ℝ) / ((10^65 * 299792458^5 : ℕ) : ℝ) := by
  rw [hbarSI, GSI, cSI]
  norm_num

theorem lP_frac : hbarSI * GSI / cSI^3
    = ((703852868251574232795 : ℕ) : ℝ) / ((10^65 * 299792458^3 : ℕ) : ℝ) := by
  rw [hbarSI, GSI, cSI]
  norm_num

theorem tP_isqrt_val :
    isqrt (10^50 * 10^50 * 703852868251574232795 / (10^65 * 299792458^5))
      = 5391246 := by decide

theorem lP_isqrt_val :
    isqrt (10^41 * 10^41 * 703852868251574232795 / (10^65 * 299792458^3))
      = 1616255 := by decide

theorem tPcgs_bounds :
    (5391246:ℝ)/10^50 ≤ tPcgs ∧ tPcgs ≤ (5391247:ℝ)/10^50 := by
  rw [tPcgs_eq, tP_frac]
  constructor
  · have h := isqrt_le_sqrt_div 703852868251574232795 (10^65 * 299792458^5)
      (10^50) (by norm_num)
    rw [tP_isqrt_val] at h
    calc (5391246:ℝ)/10^50 = ((5391246:ℕ):ℝ)/((10^50:ℕ):ℝ) := by norm_num
    _ ≤ _ := h
  · have h := sqrt_div_le_isqrt 703852868251574232795 (10^65 * 299792458^5)
      (10^50) (by norm_num) (by norm_num) (by decide)
    rw [tP_isqrt_val] at h
    calc Real.sqrt (((703852868251574232795:ℕ):ℝ) / ((10^65 * 299792458^5 : ℕ):ℝ))
        ≤ ((5391246 + 1 : ℕ):ℝ)/((10^50:ℕ):ℝ) := h
    _ = (5391247:ℝ)/10^50 := by norm_num

theorem lPcgs_bounds :
    (1616255:ℝ) * 100 / 10^41 ≤ lPcgs ∧ lPcgs ≤ (1616256:ℝ) * 100 / 10^41 := by
  rw [lPcgs_eq, lP_frac]
  constructor
  · have h := isqrt_le_sqrt_div 703852868251574232795 (10^65 * 299792458^3)
      (10^41) (by norm_num)
    rw [lP_isqrt_val] at h
    have h2 : ((1616255:ℕ):ℝ)/((10^41:ℕ):ℝ) * 100
        ≤ Real.sqrt (((703852868251574232795:ℕ):ℝ) / ((10^65 * 299792458^3 : ℕ):ℝ)) * 100 := by
      nlinarith [h]
    calc (1616255:ℝ) * 100 / 10^41
        = ((1616255:ℕ):ℝ)/((10^41:ℕ):ℝ) * 100 := by norm_num
    _ ≤ _ := h2
  · have h := sqrt_div_le_isqrt 703852868251574232795 (10^65 * 299792458^3)
      (10^41) (by norm_num) (by norm_num) (by decide)
    rw [lP_isqrt_val] at h
    have h2 : Real.sqrt (((703852868251574232795:ℕ):ℝ) / ((10^65 * 299792458^3 : ℕ):ℝ)) * 100
        ≤ ((1616255 + 1 : ℕ):ℝ)/((10^41:ℕ):ℝ) * 100 := by
      nlinarith [h]
    calc Real.sqrt (((703852868251574232795:ℕ):ℝ) / ((10^65 * 299792458^3 : ℕ):ℝ)) * 100
        ≤ ((1616255 + 1 : ℕ):ℝ)/((10^41:ℕ):ℝ) * 100 := h2
    _ = (1616256:ℝ) * 100 / 10^41 := by norm_num

/-- Age in seconds, bounded via the certified integral enclosure. -/
theorem ageVal_bounds : (4.35e17:ℝ) ≤ ageVal ∧ ageVal ≤ (4.36e17:ℝ) := by
  have hup := ageIntegral_le
  have hlo := ageIntegral_ge
  rw [ageUpN_eq] at hup
  rw [ageLoN_eq] at hlo
  norm_num [meshN, sqScale] at hup hlo
  rw [ageVal, age, H0cgs, H0val, kpcVal]
  constructor
  · nlinarith [hlo, hup]
  · nlinarith [hlo, hup]

/-- Diameter in centimetres, bounded via the certified integral enclosure. -/
theorem diameterVal_bounds :
    (8.88e28:ℝ) ≤ diameterVal ∧ diameterVal ≤ (8.91e28:ℝ) := by
  have hdup := diamIntegral_le
  have hdlo := diamIntegral_ge
  rw [diamUpN_eq] at hdup
  rw [diamLoN_eq] at hdlo
  norm_num [meshN, sqScale] at hdup hdlo
  rw [diameterVal, diameter, H0cgs, H0val, kpcVal, cCmPerS]
  constructor
  · nlinarith [hdlo, hdup]
  · nlinarith [hdlo, hdup]

/-- Claim C5: dividing the age in seconds by `t_p_cgs` and the diameter in
centimetres by `l_p_cgs` — both built by substituting the numeric constants
into the solved exponent triples — gives `8.03·10⁶⁰` Planck times and
`5.47·10⁶¹` Planck lengths to within 1%. -/
theorem planck_roundtrip :
    |ageVal / tPcgs - 8.03e60| ≤ 0.01 * 8.03e60 ∧
    |diameterVal / lPcgs - 5.47e61| ≤ 0.01 * 5.47e61 := by
  obtain ⟨htl, hth⟩ := tPcgs_bounds
  obtain ⟨hll, hlh⟩ := lPcgs_bounds
  obtain ⟨haLo, haHi⟩ := ageVal_bounds
  obtain ⟨hdLo, hdHi⟩ := diameterVal_bounds
  have ht0 : (0:ℝ) < tPcgs := lt_of_lt_of_le (by norm_num) htl
  have hl0 : (0:ℝ) < lPcgs := lt_of_lt_of_le (by norm_num) hll
  constructor
  · have h1 : ageVal / tPcgs ≤ (4.36e17:ℝ) / ((5391246:ℝ)/10^50) :=
      div_le_div (by norm_num) haHi (by norm_num) htl
    have h2 : (4.35e17:ℝ) / ((5391247:ℝ)/10^50) ≤ ageVal / tPcgs :=
      div_le_div (by linarith) haLo ht0 hth
    rw [abs_le]
    constructor
    · nlinarith [h2]
    · nlinarith [h1]
  · have h1 : diameterVal / lPcgs ≤ (8.91e28:ℝ) / ((1616255:ℝ) * 100 / 10^41) :=
      div_le_div (by norm_num) hdHi (by norm_num) hll
    have h2 : (8.88e28:ℝ) / ((1616256:ℝ) * 100 / 10^41) ≤ diameterVal / lPcgs :=
      div_le_div (by linarith) hdLo hl0 hlh
    rw [abs_le]
    constructor
    · nlinarith [h2]
    · nlinarith [h1]

/-- Witness for C7: a concrete degenerate system (three equal columns) on
which the solver produces no exponent triple. -/
theorem dim_solver_degenerate_guard_witness :
    det3 cDims cDims cDims = 0 ∧
    solveDims cDims cDims cDims timeTarget = none :=
  ⟨by norm_num [det3, cDims],
    dim_solver_degenerate_guard.2.2 cDims cDims cDims timeTarget
      (by norm_num [det3, cDims])⟩
